import Mathlib

/-
Formal model of the pantheon OCR pipeline (src/main.py).

The two components the claims are about are embedded as pure Lean
functions:

* the document stitcher `_stitch_ocr_data` (src/main.py lines 126-205),
  embedded as `stitchOcrData` together with the pure log collector
  `stitchLog`;
* the batch orchestrator `_perform_ocr_workflow_for_list`
  (src/main.py lines 728-844), embedded as the store transformer
  `runStore` and the event trace `runEvents`.

Strings are modelled as `List Char` so that the Python string
operations (split, startswith, replace, isalnum, formatting) can be
reasoned about by structural induction.  Machine-level aspects that the
code delegates to the runtime (file handles, wx callbacks, the IEEE
float arithmetic inside the progress formulas, unicode alphanumerics)
are modelled at the level noted next to each definition.
-/

set_option maxHeartbeats 1000000
set_option maxRecDepth 8192

abbrev Str : Type := List Char

/-- Python `s.split("/")[-1]`: the segment of `s` after the last slash
(the whole string when no slash occurs). -/
def afterLastSlash (s : Str) : Str :=
  s.foldl (fun acc c => if c = '/' then [] else acc ++ [c]) []

/-- One character of Python `str.isalnum`, restricted to ASCII letters
and digits (the payloads the claims exercise are ASCII). -/
def pyAlnumChar (c : Char) : Bool := c.isAlpha || c.isDigit

/-- Python `s.isalnum()`: nonempty and every character alphanumeric. -/
def pyIsAlnum (s : Str) : Bool := !s.isEmpty && s.all pyAlnumChar

/-- Fuel-driven worker for `replaceAll`; the fuel is always instantiated
with the length of the scanned string, which suffices. -/
def replaceAllGo (p r : Str) : Nat → Str → Str
  | _, [] => []
  | 0, s => s
  | fuel+1, a :: s =>
    if p ≠ [] ∧ p <+: (a :: s) then
      r ++ replaceAllGo p r fuel (List.drop (p.length - 1) s)
    else a :: replaceAllGo p r fuel s

/-- Python `s.replace(p, r)` for a nonempty pattern `p`: scan left to
right, replacing each non-overlapping occurrence of `p` by `r`.
(For the empty pattern Python interleaves `r` everywhere; the patterns
the stitcher builds always start with the character `!`, so that case
is never reached and this model leaves the string unchanged there.) -/
def replaceAll (p r s : Str) : Str := replaceAllGo p r s.length s

/-- Value of one base64 alphabet character. -/
def b64Val (c : Char) : Option Nat :=
  if 'A' ≤ c ∧ c ≤ 'Z' then some (c.toNat - 65)
  else if 'a' ≤ c ∧ c ≤ 'z' then some (c.toNat - 97 + 26)
  else if '0' ≤ c ∧ c ≤ '9' then some (c.toNat - 48 + 52)
  else if c = '+' then some 62
  else if c = '/' then some 63
  else none

/-- Decode groups of four base64 characters into bytes; `=` padding is
accepted only at the end.  A trailing group of fewer than four
characters makes the decode fail, matching the `binascii` padding
error that `base64.b64decode` raises. -/
def b64Groups : List Char → Option (List Nat)
  | [] => some []
  | c1 :: c2 :: c3 :: c4 :: rest =>
    match b64Val c1, b64Val c2 with
    | some v1, some v2 =>
      if c3 = '=' then
        if c4 = '=' ∧ rest = [] then some [v1 * 4 + v2 / 16] else none
      else
        match b64Val c3 with
        | some v3 =>
          if c4 = '=' then
            if rest = [] then some [v1 * 4 + v2 / 16, (v2 % 16) * 16 + v3 / 4] else none
          else
            match b64Val c4 with
            | some v4 =>
              (b64Groups rest).map
                (fun bs => (v1 * 4 + v2 / 16) :: ((v2 % 16) * 16 + v3 / 4) :: ((v3 % 4) * 64 + v4) :: bs)
            | none => none
        | none => none
    | _, _ => none
  | _ => none

/-- Python `base64.b64decode(s)` (default `validate=False`): characters
outside the alphabet are discarded, then the remainder is decoded in
groups of four; `none` models the raised `binascii.Error`. -/
def pyB64Decode (s : Str) : Option (List Nat) :=
  b64Groups (s.filter (fun c => (b64Val c).isSome || c = '='))

/-- Decimal digit character. -/
def digitChar (n : Nat) : Char :=
  if n = 0 then '0' else if n = 1 then '1' else if n = 2 then '2'
  else if n = 3 then '3' else if n = 4 then '4' else if n = 5 then '5'
  else if n = 6 then '6' else if n = 7 then '7' else if n = 8 then '8'
  else '9'

/-- Fuel-driven decimal printer; fuel `n` always suffices for `n`. -/
def natReprGo : Nat → Nat → Str
  | 0, n => [digitChar (n % 10)]
  | fuel+1, n => if n < 10 then [digitChar n] else natReprGo fuel (n / 10) ++ [digitChar (n % 10)]

/-- Decimal representation of a natural number, as Python `"%d"`. -/
def natRepr (n : Nat) : Str := natReprGo n n

/-- Zero padding to width ten, as in the Python format `{c:010d}`. -/
def pad10 (s : Str) : Str := List.replicate (10 - s.length) '0' ++ s

/-- Asset file name `image_{counter:010d}.{ext}` (src/main.py line 172). -/
def assetName (c : Nat) (ext : Str) : Str :=
  "image_".toList ++ pad10 (natRepr c) ++ '.' :: ext

/-- Relative path of a written asset as seen from the directory of the
stitched markdown file: `relDir` models
`os.path.relpath(images_base_output_dir, stitched_md_path.parent)`
rendered with forward slashes (`as_posix`, src/main.py lines 180-184),
and the file name is appended below it. -/
def relLink (relDir nm : Str) : Str := relDir ++ '/' :: nm

/-- First placeholder surface form `![]({id})` (src/main.py line 186). -/
def pat1 (id : Str) : Str := '!' :: '[' :: ']' :: '(' :: (id ++ [')'])

/-- Second placeholder surface form `![{id}]({id})` (src/main.py line 190). -/
def pat2 (id : Str) : Str := '!' :: '[' :: (id ++ (']' :: '(' :: (id ++ [')'])))

/-- Replacement text `![]({relative_image_path})` (src/main.py lines 187, 191). -/
def newRef (rel : Str) : Str := '!' :: '[' :: ']' :: '(' :: (rel ++ [')'])

/-- Extension and encoded part extracted from one payload
(src/main.py lines 160-170): when the payload contains a comma the part
after the first comma is the data and the header before it may carry a
`data:image/` mime prefix whose segment after the last slash, truncated
at the first semicolon, gives the extension when alphanumeric;
otherwise the whole payload is the data and the extension defaults to
`jpeg`. -/
def extractPayload (payload : Str) : Str × Str :=
  if ',' ∈ payload then
    let header := payload.takeWhile (fun c => c ≠ ',')
    let b64 := (payload.dropWhile (fun c => c ≠ ',')).tail
    let t :=
      if "data:image/".toList <+: header then
        let pt := afterLastSlash (header.takeWhile (fun c => c ≠ ';'))
        if pyIsAlnum pt then pt else "jpeg".toList
      else "jpeg".toList
    (t, b64)
  else ("jpeg".toList, payload)

/-- One embedded image entry of a page: the fields `id` and
`image_base64` of the persisted record; `none` models an absent key. -/
structure EmbImage where
  id : Option Str
  image_base64 : Option Str
deriving DecidableEq

/-- One page of a persisted record: the `markdown` field (`none` models
an absent key) and the `images` array. -/
structure PageData where
  markdown : Option Str
  images : List EmbImage
deriving DecidableEq

/-- One persisted JSON record as the stitcher classifies it:
unreadable or unparsable (`parseFail`, the exception caught at
src/main.py line 200), parsable but not an object (`nonDict`,
line 145), or an object whose `pages` entry gives the page list
(an object without a `pages` key is `record []`). -/
inductive OcrJson where
  | parseFail
  | nonDict
  | record (pages : List PageData)
deriving DecidableEq

/-- One extracted asset written during stitching: the counter value it
was named from, the file name, the inferred extension and the decoded
bytes. -/
structure Asset where
  counterValue : Nat
  name : Str
  ext : Str
  bytes : List Nat
deriving DecidableEq

/-- Run-local stitcher state: the counter `image_file_counter`, the
assets written so far in order, and the text written to the stitched
markdown file so far. -/
structure StitchState where
  counter : Nat
  assets : List Asset
  output : Str
deriving DecidableEq

/-- The `id`/`image_base64` guard of src/main.py lines 155-158: both
fields must be present and nonempty, otherwise the entry is skipped
before any decode attempt. -/
def imgFields (img : EmbImage) : Option (Str × Str) :=
  match img.id, img.image_base64 with
  | some i, some p => if i = [] ∨ p = [] then none else some (i, p)
  | _, _ => none

/-- Processing of one embedded image (src/main.py lines 154-198) over
the pair of the markdown text being rewritten and the stitcher state:
a degenerate entry is skipped, a payload whose decode fails leaves the
pair unchanged (the exception is caught and logged), and a successful
decode writes the asset, rewrites both placeholder surface forms, and
increments the counter. -/
def processImage (relDir : Str) (acc : Str × StitchState) (img : EmbImage) : Str × StitchState :=
  match imgFields img with
  | none => acc
  | some (i, p) =>
    let md := acc.1
    let st := acc.2
    let ty := (extractPayload p).1
    let dat := (extractPayload p).2
    match pyB64Decode dat with
    | none => acc
    | some bs =>
      let nm := assetName st.counter ty
      let rel := relLink relDir nm
      let md1 := replaceAll (pat1 i) (newRef rel) md
      let md2 := replaceAll (pat2 i) (newRef rel) md1
      (md2, { st with counter := st.counter + 1, assets := st.assets ++ [⟨st.counter, nm, ty, bs⟩] })

/-- Processing of one page (src/main.py lines 150-199): a page with an
absent or empty `markdown` field is skipped entirely, otherwise every
image entry is processed and the rewritten text is appended to the
output followed by one blank line. -/
def processPage (relDir : Str) (st : StitchState) (pg : PageData) : StitchState :=
  match pg.markdown with
  | none => st
  | some md =>
    if md = [] then st
    else
      let acc := pg.images.foldl (processImage relDir) (md, st)
      { acc.2 with output := acc.2.output ++ acc.1 ++ ('\n' :: '\n' :: []) }

/-- Processing of one record (src/main.py lines 142-199): unreadable
and non-object records contribute nothing to the state. -/
def processRecord (relDir : Str) (st : StitchState) (r : OcrJson) : StitchState :=
  match r with
  | .parseFail => st
  | .nonDict => st
  | .record pages => pages.foldl (processPage relDir) st

/-- The stitcher `_stitch_ocr_data`: the counter starts at 0 for every
invocation (src/main.py line 134) and the records are folded in input
order. -/
def stitchOcrData (relDir : Str) (records : List OcrJson) : StitchState :=
  records.foldl (processRecord relDir) ⟨0, [], []⟩

/-- Log messages the stitcher can emit (warnings and errors; the
per-file status callbacks are pure UI and are not modelled). -/
inductive StitchLog where
  | warnNonDict
  | errRecordParse
  | errImage (id : Str)
deriving DecidableEq

/-- Log contribution of one image entry: a degenerate entry is skipped
silently, a failing decode logs an image-processing error
(src/main.py lines 194-198). -/
def imageLog (img : EmbImage) : List StitchLog :=
  match imgFields img with
  | none => []
  | some (i, p) =>
    if (pyB64Decode (extractPayload p).2).isSome then [] else [.errImage i]

/-- Log contribution of one page: nothing for a skipped page. -/
def pageLog (pg : PageData) : List StitchLog :=
  match pg.markdown with
  | none => []
  | some md => if md = [] then [] else pg.images.foldr (fun i acc => imageLog i ++ acc) []

/-- Log contribution of one record: a warning for a non-object record
(src/main.py lines 145-149), an error for an unparsable one. -/
def recordLog : OcrJson → List StitchLog
  | .parseFail => [.errRecordParse]
  | .nonDict => [.warnNonDict]
  | .record pages => pages.foldr (fun pg acc => pageLog pg ++ acc) []

/-- All warnings and errors logged by one stitch run.  Logging in the
source never feeds back into the stitcher state, so the trace is a
pure function of the records. -/
def stitchLog (records : List OcrJson) : List StitchLog :=
  records.foldr (fun r acc => recordLog r ++ acc) []

/-- Invocation of the stitcher after an arbitrary earlier state: the
source re-initialises `image_file_counter` at line 134 inside the
function body, so no state of a previous invocation flows into a new
one.  The `prior` argument stands for whatever a preceding run left
behind and is dead on arrival, exactly as in the source. -/
def runStitchAfter (_prior : StitchState) (relDir : Str) (records : List OcrJson) : StitchState :=
  stitchOcrData relDir records

/-
Orchestrator model (`_perform_ocr_workflow_for_list`,
src/main.py lines 728-844).  A work item records the identity-relevant
part of one selected image (the stem of its path, which names the
persisted record) together with the outcome of each fallible sub-step,
and the run is split into the store transformer and the event trace;
in the source neither influences the other.
-/

structure WorkItem where
  stem : Str
  convertOk : Bool
  encodeOk : Bool
  ocrOk : Bool
  serializeOk : Bool
  writeOk : Bool
  serializeErrDetail : Str
deriving DecidableEq

/-- Contents of one persisted record: either the serialised OCR result
for the item, or the error-marker object
`{"error": "Failed to serialize OCR response", "details": str(e)}`
written at src/main.py lines 800-803. -/
inductive RecContent where
  | ocrData (item : Str)
  | errorMarker (marker detail : Str)
deriving DecidableEq

/-- The error marker string of src/main.py line 801. -/
def serializeFailMsg : Str := "Failed to serialize OCR response".toList

/-- Key of the record written for an item:
`image_path.with_suffix(".json").name` (src/main.py line 805). -/
def itemKey (it : WorkItem) : Str := it.stem ++ ".json".toList

abbrev Store : Type := List (Str × RecContent)

/-- Writing a record: overwriting the entry under the same key when one
exists (the file write is idempotent by name), appending otherwise. -/
def storeInsert : Store → Str → RecContent → Store
  | [], k, v => [(k, v)]
  | e :: s, k, v => if e.1 = k then (k, v) :: s else e :: storeInsert s k v

/-- Reading one record back by key. -/
def lookupStore (s : Store) (k : Str) : Option RecContent :=
  (s.find? (fun e => decide (e.1 = k))).map (fun e => e.2)

/-- An item reaches the record write and the write succeeds.  A failed
serialisation does not prevent the write (lines 796-803). -/
def itemSucceeds (it : WorkItem) : Bool :=
  it.convertOk && it.encodeOk && it.ocrOk && it.writeOk

/-- A per-item hard failure: failed conversion, encoding, OCR request
or record write. -/
def itemHardFails (it : WorkItem) : Bool := !itemSucceeds it

/-- The record content written for a surviving item. -/
def itemRecord (it : WorkItem) : RecContent :=
  if it.serializeOk then .ocrData it.stem
  else .errorMarker serializeFailMsg it.serializeErrDetail

/-- Store effect of one item (src/main.py lines 750-825): only an item
that converts, encodes, OCRs and writes successfully changes the
store. -/
def processItemStore (s : Store) (it : WorkItem) : Store :=
  if itemSucceeds it then storeInsert s (itemKey it) (itemRecord it) else s

/-- Store contents after one orchestrator run over a fresh record
directory. -/
def runStore (items : List WorkItem) : Store :=
  items.foldl processItemStore []

/-- Observable events of one orchestrator run, in emission order. -/
inductive OrchEvent where
  | progress (v : Nat)
  | statusProcessing (i : Nat)
  | normalizeDone (i : Nat)
  | statusFailConvert (i : Nat)
  | encodeDone (i : Nat)
  | statusFailEncode (i : Nat)
  | submitDone (i : Nat)
  | statusFailOcr (i : Nat)
  | errSerialize (i : Nat)
  | persistDone (i : Nat)
  | statusFailSave (i : Nat)
  | statusComplete
deriving DecidableEq

/-- Progress value `int((i / total_files) * 100)` (src/main.py
lines 737 and 830), modelled with exact rational flooring.  The source
computes in IEEE doubles, which agrees with this for every batch size
used in the theorems below; for some batch sizes the float value can
differ by one unit. -/
def pstart (n i : Nat) : Nat := i * 100 / n

/-- Progress value `int(k * (100 / total_files) / 4)` (src/main.py
lines 747, 765, 778), modelled with exact rational flooring; the same
float caveat as for `pstart` applies. -/
def pquarter (n k : Nat) : Nat := k * 100 / (4 * n)

/-- Event trace of one item (src/main.py lines 736-832): the first
quarter value is emitted before the conversion runs, the second after
conversion and before encoding, the third after encoding and before
the OCR request; a conversion or encoding failure `continue`s without
the end-of-share value, while an OCR or write failure still reaches
the end-of-share progress at line 830. -/
def itemEvents (n i : Nat) (it : WorkItem) : List OrchEvent :=
  .statusProcessing i :: .progress (pstart n i + pquarter n 1) ::
  (if it.convertOk then
    .normalizeDone i :: .progress (pstart n i + pquarter n 2) ::
    (if it.encodeOk then
      .encodeDone i :: .progress (pstart n i + pquarter n 3) ::
      ((if it.ocrOk then
          .submitDone i ::
          ((if it.serializeOk then [] else [.errSerialize i]) ++
           (if it.writeOk then [.persistDone i] else [.statusFailSave i]))
        else [.statusFailOcr i]) ++ [.progress (pstart n (i + 1))])
     else [.statusFailEncode i])
   else [.statusFailConvert i])

/-- Events of the items from index `i` on. -/
def eventsFrom (n : Nat) : Nat → List WorkItem → List OrchEvent
  | _, [] => []
  | i, it :: rest => itemEvents n i it ++ eventsFrom n (i + 1) rest

/-- Full event trace of one orchestrator run: progress 0 up front
(line 734), the per-item events, then the completion status and the
unconditional final progress 100 (lines 834-837). -/
def runEvents (items : List WorkItem) : List OrchEvent :=
  .progress 0 :: (eventsFrom items.length 0 items ++ [.statusComplete, .progress 100])

/-- The progress percentages of a trace, in emission order. -/
def progressValues (es : List OrchEvent) : List Nat :=
  es.filterMap (fun e => match e with | .progress v => some v | _ => none)

/-- The failure status message the orchestrator emits for a hard-failed
item (src/main.py lines 756-760, 770-773, 826-829, 816-825). -/
def failureEvent (k : Nat) (it : WorkItem) : OrchEvent :=
  if !it.convertOk then .statusFailConvert k
  else if !it.encodeOk then .statusFailEncode k
  else if !it.ocrOk then .statusFailOcr k
  else .statusFailSave k

/-- Counter and naming invariant of the stitcher state: the counter
equals the number of assets written so far, the counter values of the
written assets are exactly 0, 1, 2, ... in order, and every asset is
named from its counter value and extension by the `image_{c:010d}.{ext}`
format. -/
def CtrInv (st : StitchState) : Prop :=
  st.counter = st.assets.length ∧
  st.assets.map (fun a => a.counterValue) = List.range st.assets.length ∧
  st.assets.map (fun a => a.name) = st.assets.map (fun a => assetName a.counterValue a.ext)

/-- The subtype as the specification words it: the text of the header
after the prefix `data:image/` (eleven characters), up to the first
semicolon.  This definition follows the words of the spec, for
comparison with `extractPayload`, which follows the source. -/
def specSubtype (header : Str) : Str :=
  (header.drop 11).takeWhile (fun c => c ≠ ';')

/-- The extension the claim prescribes for a payload with a data-URI
header: the subtype after `image/` when alphanumeric, else `jpeg`.
This definition follows the words of the spec, for comparison with the
extension computed by `extractPayload`. -/
def claimC5Ext (payload : Str) : Str :=
  if pyIsAlnum (specSubtype (payload.takeWhile (fun c => c ≠ ','))) then
    specSubtype (payload.takeWhile (fun c => c ≠ ','))
  else "jpeg".toList

/-
String lemmas.  The goal of this section is the pair of facts that the
C1 analysis needs: `replaceAll p r s` contains no occurrence of `p`
when the pattern and the replacement both start with the only `!` they
contain and neither is a prefix of the other, and a string free of
occurrences of such a pattern stays free of it under replacement of a
different pattern by the same kind of replacement.
-/

lemma replaceAllGo_fuel_eq (p r : Str) :
    ∀ f1 f2 (s : Str), s.length ≤ f1 → s.length ≤ f2 →
      replaceAllGo p r f1 s = replaceAllGo p r f2 s := by
  intro f1
  induction f1 with
  | zero =>
    intro f2 s hs _
    have : s = [] := List.length_eq_zero.mp (Nat.le_zero.mp hs)
    subst this
    cases f2 <;> rfl
  | succ f1 ih =>
    intro f2 s hs1 hs2
    cases s with
    | nil => cases f2 <;> rfl
    | cons a s1 =>
      cases f2 with
      | zero => simp at hs2
      | succ f2 =>
        simp only [replaceAllGo]
        by_cases hc : p ≠ [] ∧ p <+: (a :: s1)
        · rw [if_pos hc, if_pos hc]
          have hd : (List.drop (p.length - 1) s1).length ≤ s1.length := by
            rw [List.length_drop]; omega
          have h1 : s1.length ≤ f1 := by simp at hs1; omega
          have h2 : s1.length ≤ f2 := by simp at hs2; omega
          rw [ih f2 (List.drop (p.length - 1) s1) (le_trans hd h1) (le_trans hd h2)]
        · rw [if_neg hc, if_neg hc]
          have h1 : s1.length ≤ f1 := by simp at hs1; omega
          have h2 : s1.length ≤ f2 := by simp at hs2; omega
          rw [ih f2 s1 h1 h2]

lemma replaceAll_nil (p r : Str) : replaceAll p r [] = [] := rfl

lemma replaceAll_cons (p r : Str) (a : Char) (s : Str) :
    replaceAll p r (a :: s) =
      if p ≠ [] ∧ p <+: (a :: s) then
        r ++ replaceAll p r (List.drop (p.length - 1) s)
      else a :: replaceAll p r s := by
  show replaceAllGo p r (a :: s).length (a :: s) = _
  simp only [List.length_cons, replaceAllGo]
  by_cases hc : p ≠ [] ∧ p <+: (a :: s)
  · rw [if_pos hc, if_pos hc]
    congr 1
    exact replaceAllGo_fuel_eq p r s.length (List.drop (p.length - 1) s).length
      (List.drop (p.length - 1) s) (by rw [List.length_drop]; omega) le_rfl
  · rw [if_neg hc, if_neg hc]
    rfl

lemma pfx_append_cases {y : Str} :
    ∀ (x : Str) {p : Str}, p <+: x ++ y → p <+: x ∨ ∃ p2, p = x ++ p2 ∧ p2 <+: y := by
  intro x
  induction x with
  | nil =>
    intro p h
    exact Or.inr ⟨p, rfl, h⟩
  | cons a x1 ih =>
    intro p h
    cases p with
    | nil => exact Or.inl List.nil_prefix
    | cons c p1 =>
      rw [List.cons_append, List.cons_prefix_cons] at h
      obtain ⟨rfl, h1⟩ := h
      rcases ih h1 with h2 | ⟨p2, rfl, h3⟩
      · exact Or.inl (List.cons_prefix_cons.mpr ⟨rfl, h2⟩)
      · exact Or.inr ⟨p2, by simp, h3⟩

lemma ifx_cons_cases {p : Str} {a : Char} {s : Str} (h : p <:+: a :: s) :
    p <+: a :: s ∨ p <:+: s := by
  obtain ⟨u, v, huv⟩ := h
  cases u with
  | nil => exact Or.inl ⟨v, by simpa using huv⟩
  | cons b u1 =>
    rw [List.cons_append, List.cons_append] at huv
    obtain ⟨rfl, h2⟩ := List.cons.inj huv
    exact Or.inr ⟨u1, v, h2⟩

lemma sfx_cons {l1 l2 : Str} (a : Char) (h : l1 <:+ l2) : l1 <:+ a :: l2 := by
  obtain ⟨t, rfl⟩ := h
  exact ⟨a :: t, rfl⟩

lemma ifx_append_cases {y : Str} :
    ∀ {x p : Str}, p <:+: x ++ y →
      p <:+: x ∨ p <:+: y ∨
        ∃ p1 p2, p = p1 ++ p2 ∧ p1 ≠ [] ∧ p2 ≠ [] ∧ p1 <:+ x ∧ p2 <+: y := by
  intro x
  induction x with
  | nil =>
    intro p h
    exact Or.inr (Or.inl (by simpa using h))
  | cons a x1 ih =>
    intro p h
    rw [List.cons_append] at h
    rcases ifx_cons_cases h with h1 | h1
    · rcases pfx_append_cases (a :: x1) h1 with h2 | ⟨p2, rfl, h3⟩
      · exact Or.inl h2.isInfix
      · cases p2 with
        | nil => exact Or.inl (by rw [List.append_nil])
        | cons c p3 =>
          exact Or.inr (Or.inr ⟨a :: x1, c :: p3, rfl, List.cons_ne_nil a x1,
            List.cons_ne_nil c p3, List.suffix_refl (a :: x1), h3⟩)
    · rcases ih h1 with h2 | h2 | ⟨p1, p2, rfl, h3, h4, h5, h6⟩
      · exact Or.inl ( List.infix_cons h2)
      · exact Or.inr (Or.inl h2)
      · exact Or.inr (Or.inr ⟨p1, p2, rfl, h3, h4, sfx_cons a h5, h6⟩)

lemma pfx_head_bang {pt p1 : Str} (h : p1 <+: '!' :: pt) (hne : p1 ≠ []) :
    ∃ w, p1 = '!' :: w := by
  cases p1 with
  | nil => exact absurd rfl hne
  | cons c w =>
    rw [List.cons_prefix_cons] at h
    exact ⟨w, by rw [h.1]⟩

lemma sfx_bang_whole {rt p1 : Str} (hrb : '!' ∉ rt) (h : p1 <:+ '!' :: rt)
    (hhead : ∃ w, p1 = '!' :: w) : p1 = '!' :: rt := by
  obtain ⟨t, ht⟩ := h
  cases t with
  | nil => rw [List.nil_append] at ht; exact ht
  | cons c t1 =>
    rw [List.cons_append] at ht
    obtain ⟨rfl, h2⟩ := List.cons.inj ht
    obtain ⟨w, rfl⟩ := hhead
    exact absurd (h2 ▸ (List.mem_append.mpr (Or.inr (List.mem_cons_self '!' w)))) hrb

lemma bang_no_ifx {pt rt : Str} (hrb : '!' ∉ rt)
    (h1 : ¬ ('!' :: pt) <+: ('!' :: rt)) : ¬ ('!' :: pt) <:+: ('!' :: rt) := by
  intro h
  obtain ⟨u, v, huv⟩ := h
  cases u with
  | nil => exact h1 ⟨v, by simpa using huv⟩
  | cons c u1 =>
    rw [List.cons_append, List.cons_append] at huv
    obtain ⟨rfl, h2⟩ := List.cons.inj huv
    exact hrb (h2 ▸ (List.mem_append.mpr (Or.inl (List.mem_append.mpr
      (Or.inr (List.mem_cons_self '!' pt))))))

lemma pfx_of_replaceAll_bang {q rt : Str} :
    ∀ n (s w : Str), s.length ≤ n → '!' ∉ w →
      w <+: replaceAll q ('!' :: rt) s → w <+: s := by
  intro n
  induction n with
  | zero =>
    intro s w hs _ h
    have : s = [] := List.length_eq_zero.mp (Nat.le_zero.mp hs)
    subst this
    rw [replaceAll_nil, List.prefix_nil] at h
    exact h ▸ List.nil_prefix
  | succ n ih =>
    intro s w hs hw h
    cases s with
    | nil =>
      rw [replaceAll_nil, List.prefix_nil] at h
      exact h ▸ List.nil_prefix
    | cons a s1 =>
      rw [replaceAll_cons] at h
      have hlen : s1.length ≤ n := by simp at hs; omega
      by_cases hc : q ≠ [] ∧ q <+: (a :: s1)
      · rw [if_pos hc] at h
        cases w with
        | nil => exact List.nil_prefix
        | cons c w1 =>
          rw [List.cons_append, List.cons_prefix_cons] at h
          exact absurd (h.1 ▸ List.mem_cons_self c w1) hw
      · rw [if_neg hc] at h
        cases w with
        | nil => exact List.nil_prefix
        | cons c w1 =>
          rw [List.cons_prefix_cons] at h
          obtain ⟨rfl, h2⟩ := h
          have hw1 : '!' ∉ w1 := fun hm => hw (List.mem_cons_of_mem c hm)
          exact List.cons_prefix_cons.mpr ⟨rfl, ih s1 w1 hlen hw1 h2⟩

lemma replaceAll_no_ifx_self {pt rt : Str} (hpb : '!' ∉ pt) (hrb : '!' ∉ rt)
    (h1 : ¬ ('!' :: pt) <+: ('!' :: rt)) (h2 : ¬ ('!' :: rt) <+: ('!' :: pt)) :
    ∀ s, ¬ ('!' :: pt) <:+: replaceAll ('!' :: pt) ('!' :: rt) s := by
  have main : ∀ n (s : Str), s.length ≤ n →
      ¬ ('!' :: pt) <:+: replaceAll ('!' :: pt) ('!' :: rt) s := by
    intro n
    induction n with
    | zero =>
      intro s hs h
      have : s = [] := List.length_eq_zero.mp (Nat.le_zero.mp hs)
      subst this
      rw [replaceAll_nil, List.infix_nil] at h
      exact List.cons_ne_nil '!' pt h
    | succ n ih =>
      intro s hs h
      cases s with
      | nil =>
        rw [replaceAll_nil, List.infix_nil] at h
        exact List.cons_ne_nil '!' pt h
      | cons a s1 =>
        have hlen : s1.length ≤ n := by simp at hs; omega
        rw [replaceAll_cons] at h
        by_cases hc : ('!' :: pt) ≠ [] ∧ ('!' :: pt) <+: (a :: s1)
        · rw [if_pos hc] at h
          rcases ifx_append_cases h with h3 | h3 | ⟨p1, p2, hp12, h1ne, h2ne, hsfx, _⟩
          · exact bang_no_ifx hrb h1 h3
          · have hd : (List.drop (('!' :: pt).length - 1) s1).length ≤ n := by
              rw [List.length_drop]; omega
            exact ih (List.drop (('!' :: pt).length - 1) s1) hd h3
          · have hp1 : p1 <+: ('!' :: pt) := ⟨p2, hp12.symm⟩
            have hhead := pfx_head_bang hp1 h1ne
            have hp1r := sfx_bang_whole hrb hsfx hhead
            exact h2 ⟨p2, by rw [← hp1r, ← hp12]⟩
        · rw [if_neg hc] at h
          have hnp : ¬ ('!' :: pt) <+: (a :: s1) := fun hp =>
            hc ⟨List.cons_ne_nil '!' pt, hp⟩
          rcases ifx_cons_cases h with h3 | h3
          · rw [List.cons_prefix_cons] at h3
            obtain ⟨ha, h4⟩ := h3
            have h5 := pfx_of_replaceAll_bang s1.length s1 pt le_rfl hpb h4
            exact hnp (ha ▸ List.cons_prefix_cons.mpr ⟨rfl, h5⟩)
          · exact ih s1 hlen h3
  intro s
  exact main s.length s le_rfl

lemma replaceAll_no_ifx_other {q pt rt : Str} (hpb : '!' ∉ pt) (hrb : '!' ∉ rt)
    (h1 : ¬ ('!' :: pt) <+: ('!' :: rt)) (h2 : ¬ ('!' :: rt) <+: ('!' :: pt)) :
    ∀ s, ¬ ('!' :: pt) <:+: s → ¬ ('!' :: pt) <:+: replaceAll q ('!' :: rt) s := by
  have main : ∀ n (s : Str), s.length ≤ n → ¬ ('!' :: pt) <:+: s →
      ¬ ('!' :: pt) <:+: replaceAll q ('!' :: rt) s := by
    intro n
    induction n with
    | zero =>
      intro s hs _ h
      have : s = [] := List.length_eq_zero.mp (Nat.le_zero.mp hs)
      subst this
      rw [replaceAll_nil, List.infix_nil] at h
      exact List.cons_ne_nil '!' pt h
    | succ n ih =>
      intro s hs ht h
      cases s with
      | nil =>
        rw [replaceAll_nil, List.infix_nil] at h
        exact List.cons_ne_nil '!' pt h
      | cons a s1 =>
        have hlen : s1.length ≤ n := by simp at hs; omega
        have ht1 : ¬ ('!' :: pt) <:+: s1 := fun hx => ht ( List.infix_cons hx)
        rw [replaceAll_cons] at h
        by_cases hc : q ≠ [] ∧ q <+: (a :: s1)
        · rw [if_pos hc] at h
          rcases ifx_append_cases h with h3 | h3 | ⟨p1, p2, hp12, h1ne, h2ne, hsfx, _⟩
          · exact bang_no_ifx hrb h1 h3
          · have hd : (List.drop (q.length - 1) s1).length ≤ n := by
              rw [List.length_drop]; omega
            have htd : ¬ ('!' :: pt) <:+: List.drop (q.length - 1) s1 := fun hx =>
              ht1 (hx.trans (List.drop_suffix (q.length - 1) s1).isInfix)
            exact ih (List.drop (q.length - 1) s1) hd htd h3
          · have hp1 : p1 <+: ('!' :: pt) := ⟨p2, hp12.symm⟩
            have hhead := pfx_head_bang hp1 h1ne
            have hp1r := sfx_bang_whole hrb hsfx hhead
            exact h2 ⟨p2, by rw [← hp1r, ← hp12]⟩
        · rw [if_neg hc] at h
          rcases ifx_cons_cases h with h3 | h3
          · rw [List.cons_prefix_cons] at h3
            obtain ⟨ha, h4⟩ := h3
            have h5 := pfx_of_replaceAll_bang s1.length s1 pt le_rfl hpb h4
            exact ht (List.IsPrefix.isInfix (ha ▸ List.cons_prefix_cons.mpr ⟨rfl, h5⟩))
          · exact ih s1 hlen ht1 h3
  intro s ht
  exact main s.length s le_rfl ht

lemma paren_pfx_eq :
    ∀ (xs ys : Str), ')' ∉ xs → ')' ∉ ys → (xs ++ [')']) <+: (ys ++ [')']) → xs = ys := by
  intro xs
  induction xs with
  | nil =>
    intro ys _ hy h
    cases ys with
    | nil => rfl
    | cons c ys1 =>
      rw [List.nil_append, List.cons_append, List.cons_prefix_cons] at h
      exact absurd (h.1.symm ▸ List.mem_cons_self c ys1) hy
  | cons a xs1 ih =>
    intro ys hx hy h
    cases ys with
    | nil =>
      rw [List.cons_append, List.nil_append, List.cons_prefix_cons] at h
      exact absurd (h.1 ▸ List.mem_cons_self a xs1) hx
    | cons c ys1 =>
      rw [List.cons_append, List.cons_append, List.cons_prefix_cons] at h
      obtain ⟨rfl, h2⟩ := h
      have hx1 : ')' ∉ xs1 := fun hm => hx (List.mem_cons_of_mem a hm)
      have hy1 : ')' ∉ ys1 := fun hm => hy (List.mem_cons_of_mem a hm)
      rw [ih ys1 hx1 hy1 h2]

/-
Character-level facts about the names and references the stitcher
builds, feeding the placeholder-elimination theorem.
-/

/-- Hypotheses on a placeholder id under which the elimination theorem
below applies: nonempty and free of the four structural characters of
the link syntax and of the path separator. -/
abbrev goodId (i : Str) : Prop :=
  i ≠ [] ∧ '!' ∉ i ∧ ')' ∉ i ∧ ']' ∉ i ∧ '/' ∉ i

/-- Hypotheses on the relative asset directory: free of `!` and `)`,
as any real relative path is. -/
abbrev goodRelDir (d : Str) : Prop := '!' ∉ d ∧ ')' ∉ d

lemma pat1_tail_bang {i : Str} (hi : '!' ∉ i) :
    '!' ∉ ('[' :: ']' :: '(' :: (i ++ [')'])) := by
  intro h
  simp only [List.mem_cons, List.mem_append, List.mem_singleton] at h
  rcases h with h | h | h | h | h
  · exact absurd h (by decide)
  · exact absurd h (by decide)
  · exact absurd h (by decide)
  · exact hi h
  · exact absurd h (by decide)

lemma pat2_tail_bang {i : Str} (hi : '!' ∉ i) :
    '!' ∉ ('[' :: (i ++ (']' :: '(' :: (i ++ [')'])))) := by
  intro h
  simp only [List.mem_cons, List.mem_append, List.mem_singleton] at h
  rcases h with h | h | h | h | h | h
  · exact absurd h (by decide)
  · exact hi h
  · exact absurd h (by decide)
  · exact absurd h (by decide)
  · exact hi h
  · exact absurd h (by decide)

lemma no_pfx_pat1_ref {i rel : Str} (hi : ')' ∉ i) (hrel : ')' ∉ rel) (hne : i ≠ rel) :
    ¬ pat1 i <+: newRef rel ∧ ¬ newRef rel <+: pat1 i := by
  constructor
  · intro h
    simp only [pat1, newRef, List.cons_prefix_cons, true_and] at h
    exact hne (paren_pfx_eq i rel hi hrel h)
  · intro h
    simp only [pat1, newRef, List.cons_prefix_cons, true_and] at h
    exact hne (paren_pfx_eq rel i hrel hi h).symm

lemma no_pfx_pat2_ref {i rel : Str} (hi0 : i ≠ []) (hbr : ']' ∉ i) :
    ¬ pat2 i <+: newRef rel ∧ ¬ newRef rel <+: pat2 i := by
  obtain ⟨c, i1, rfl⟩ := List.exists_cons_of_ne_nil hi0
  constructor
  · intro h
    simp only [pat2, newRef, List.cons_append, List.cons_prefix_cons, true_and] at h
    exact hbr (h.1 ▸ List.mem_cons_self c i1)
  · intro h
    simp only [pat2, newRef, List.cons_append, List.cons_prefix_cons, true_and] at h
    exact hbr (h.1.symm ▸ List.mem_cons_self c i1)

lemma alnum_mem_ne {s : Str} (h : pyIsAlnum s = true) {c : Char} (hc : c ∈ s) :
    (c.isAlpha || c.isDigit) = true := by
  unfold pyIsAlnum at h
  rw [Bool.and_eq_true] at h
  exact List.all_eq_true.mp h.2 c hc

lemma digitChar_is_digit (n : Nat) : (digitChar n).isDigit = true := by
  unfold digitChar
  repeat' split
  all_goals decide

lemma natReprGo_digit : ∀ f n, ∀ c ∈ natReprGo f n, c.isDigit = true := by
  intro f
  induction f with
  | zero =>
    intro n c hc
    simp only [natReprGo, List.mem_singleton] at hc
    exact hc ▸ digitChar_is_digit (n % 10)
  | succ f ih =>
    intro n c hc
    simp only [natReprGo] at hc
    split at hc
    · simp only [List.mem_singleton] at hc
      exact hc ▸ digitChar_is_digit n
    · rw [List.mem_append, List.mem_singleton] at hc
      rcases hc with hc | hc
      · exact ih (n / 10) c hc
      · exact hc ▸ digitChar_is_digit (n % 10)

lemma assetName_mem_cases {c : Char} {ty : Str} {n : Nat} (h : c ∈ assetName n ty) :
    c ∈ "image_".toList ∨ c = '0' ∨ c.isDigit = true ∨ c = '.' ∨ c ∈ ty := by
  unfold assetName pad10 natRepr at h
  simp only [List.mem_append, List.mem_cons] at h
  rcases h with (h | h | h) | h | h
  · exact Or.inl h
  · exact Or.inr (Or.inl (List.eq_of_mem_replicate h))
  · exact Or.inr (Or.inr (Or.inl (natReprGo_digit n n c h)))
  · exact Or.inr (Or.inr (Or.inr (Or.inl h)))
  · exact Or.inr (Or.inr (Or.inr (Or.inr h)))

lemma assetName_avoid {ty : Str} (hty : pyIsAlnum ty = true) (n : Nat) {c : Char}
    (hc : (c.isAlpha || c.isDigit) = false) (hni : c ∉ "image_".toList) (hnd : c ≠ '.') :
    c ∉ assetName n ty := by
  intro h
  rcases assetName_mem_cases h with h | h | h | h | h
  · exact hni h
  · subst h; exact absurd hc (by decide)
  · rw [Bool.or_eq_false_iff] at hc
    exact absurd h (by rw [hc.2]; decide)
  · exact hnd h
  · exact absurd (alnum_mem_ne hty h) (by rw [hc]; decide)

lemma relLink_avoid {relDir ty : Str} {n : Nat} {c : Char}
    (hd : c ∉ relDir) (hty : pyIsAlnum ty = true)
    (hc : (c.isAlpha || c.isDigit) = false) (hni : c ∉ "image_".toList)
    (hnd : c ≠ '.') (hns : c ≠ '/') :
    c ∉ relLink relDir (assetName n ty) := by
  intro h
  unfold relLink at h
  rw [List.mem_append, List.mem_cons] at h
  rcases h with h | h | h
  · exact hd h
  · exact hns h
  · exact assetName_avoid hty n hc hni hnd h

lemma relLink_has_slash (relDir nm : Str) : '/' ∈ relLink relDir nm := by
  unfold relLink
  rw [List.mem_append, List.mem_cons]
  exact Or.inr (Or.inl rfl)

lemma extract_ty_alnum (p : Str) : pyIsAlnum (extractPayload p).1 = true := by
  unfold extractPayload
  by_cases h : ',' ∈ p
  · rw [if_pos h]
    dsimp only
    split
    · split
      · assumption
      · decide
    · decide
  · rw [if_neg h]
    show pyIsAlnum "jpeg".toList = true
    decide

lemma processImage_skip {relDir : Str} {acc : Str × StitchState} {img : EmbImage}
    (h : imgFields img = none) : processImage relDir acc img = acc := by
  simp only [processImage, h]

lemma processImage_fail {relDir : Str} {acc : Str × StitchState} {img : EmbImage}
    {i p : Str} (h : imgFields img = some (i, p))
    (hd : pyB64Decode (extractPayload p).2 = none) :
    processImage relDir acc img = acc := by
  simp only [processImage, h, hd]

lemma processImage_succ {relDir : Str} {acc : Str × StitchState} {img : EmbImage}
    {i p : Str} {bs : List Nat} (h : imgFields img = some (i, p))
    (hd : pyB64Decode (extractPayload p).2 = some bs) :
    processImage relDir acc img =
      (replaceAll (pat2 i)
         (newRef (relLink relDir (assetName acc.2.counter (extractPayload p).1)))
         (replaceAll (pat1 i)
           (newRef (relLink relDir (assetName acc.2.counter (extractPayload p).1))) acc.1),
       { acc.2 with
           counter := acc.2.counter + 1,
           assets := acc.2.assets ++
             [⟨acc.2.counter, assetName acc.2.counter (extractPayload p).1,
               (extractPayload p).1, bs⟩] }) := by
  simp only [processImage, h, hd]

lemma pat_ref_conditions {i : Str} (hi : goodId i) {relDir : Str} (hrd : goodRelDir relDir)
    (n : Nat) (ty : Str) (hty : pyIsAlnum ty = true) :
    (¬ pat1 i <+: newRef (relLink relDir (assetName n ty)) ∧
       ¬ newRef (relLink relDir (assetName n ty)) <+: pat1 i) ∧
    (¬ pat2 i <+: newRef (relLink relDir (assetName n ty)) ∧
       ¬ newRef (relLink relDir (assetName n ty)) <+: pat2 i) ∧
    '!' ∉ relLink relDir (assetName n ty) ∧ ')' ∉ relLink relDir (assetName n ty) := by
  have hbang : '!' ∉ relLink relDir (assetName n ty) :=
    relLink_avoid hrd.1 hty (by decide) (by decide) (by decide) (by decide)
  have hparen : ')' ∉ relLink relDir (assetName n ty) :=
    relLink_avoid hrd.2 hty (by decide) (by decide) (by decide) (by decide)
  have hne : i ≠ relLink relDir (assetName n ty) := by
    intro he
    exact hi.2.2.2.2 (he ▸ relLink_has_slash relDir (assetName n ty))
  exact ⟨no_pfx_pat1_ref hi.2.2.1 hparen hne, no_pfx_pat2_ref hi.1 hi.2.2.2.1, hbang, hparen⟩

lemma other_step_no_pat {i j : Str} (hi : goodId i) {relDir : Str} (hrd : goodRelDir relDir)
    (n : Nat) (ty : Str) (hty : pyIsAlnum ty = true) {md : Str}
    (h1 : ¬ pat1 i <:+: md) (h2 : ¬ pat2 i <:+: md) :
    ¬ pat1 i <:+: replaceAll (pat2 j) (newRef (relLink relDir (assetName n ty)))
        (replaceAll (pat1 j) (newRef (relLink relDir (assetName n ty))) md) ∧
    ¬ pat2 i <:+: replaceAll (pat2 j) (newRef (relLink relDir (assetName n ty)))
        (replaceAll (pat1 j) (newRef (relLink relDir (assetName n ty))) md) := by
  obtain ⟨hc1, hc2, hbang, _⟩ := pat_ref_conditions hi hrd n ty hty
  have h1a : ¬ pat1 i <:+:
      replaceAll (pat1 j) (newRef (relLink relDir (assetName n ty))) md :=
    replaceAll_no_ifx_other (pat1_tail_bang hi.2.1) (pat1_tail_bang hbang)
      hc1.1 hc1.2 md h1
  have h2a : ¬ pat2 i <:+:
      replaceAll (pat1 j) (newRef (relLink relDir (assetName n ty))) md :=
    replaceAll_no_ifx_other (pat2_tail_bang hi.2.1) (pat1_tail_bang hbang)
      hc2.1 hc2.2 md h2
  have h1b : ¬ pat1 i <:+: replaceAll (pat2 j) (newRef (relLink relDir (assetName n ty)))
      (replaceAll (pat1 j) (newRef (relLink relDir (assetName n ty))) md) :=
    replaceAll_no_ifx_other (pat1_tail_bang hi.2.1) (pat1_tail_bang hbang)
      hc1.1 hc1.2 _ h1a
  have h2b : ¬ pat2 i <:+: replaceAll (pat2 j) (newRef (relLink relDir (assetName n ty)))
      (replaceAll (pat1 j) (newRef (relLink relDir (assetName n ty))) md) :=
    replaceAll_no_ifx_other (pat2_tail_bang hi.2.1) (pat1_tail_bang hbang)
      hc2.1 hc2.2 _ h2a
  exact ⟨h1b, h2b⟩

lemma self_step_no_pat {i : Str} (hi : goodId i) {relDir : Str} (hrd : goodRelDir relDir)
    (n : Nat) (ty : Str) (hty : pyIsAlnum ty = true) (md : Str) :
    ¬ pat1 i <:+: replaceAll (pat2 i) (newRef (relLink relDir (assetName n ty)))
        (replaceAll (pat1 i) (newRef (relLink relDir (assetName n ty))) md) ∧
    ¬ pat2 i <:+: replaceAll (pat2 i) (newRef (relLink relDir (assetName n ty)))
        (replaceAll (pat1 i) (newRef (relLink relDir (assetName n ty))) md) := by
  obtain ⟨hc1, hc2, hbang, _⟩ := pat_ref_conditions hi hrd n ty hty
  have h1a : ¬ pat1 i <:+:
      replaceAll (pat1 i) (newRef (relLink relDir (assetName n ty))) md :=
    replaceAll_no_ifx_self (pat1_tail_bang hi.2.1) (pat1_tail_bang hbang)
      hc1.1 hc1.2 md
  have h1b : ¬ pat1 i <:+: replaceAll (pat2 i) (newRef (relLink relDir (assetName n ty)))
      (replaceAll (pat1 i) (newRef (relLink relDir (assetName n ty))) md) :=
    replaceAll_no_ifx_other (pat1_tail_bang hi.2.1) (pat1_tail_bang hbang)
      hc1.1 hc1.2 _ h1a
  have h2b : ¬ pat2 i <:+: replaceAll (pat2 i) (newRef (relLink relDir (assetName n ty)))
      (replaceAll (pat1 i) (newRef (relLink relDir (assetName n ty))) md) :=
    replaceAll_no_ifx_self (pat2_tail_bang hi.2.1) (pat1_tail_bang hbang)
      hc2.1 hc2.2 _
  exact ⟨h1b, h2b⟩

lemma fold_no_pat {relDir : Str} (hrd : goodRelDir relDir) {i : Str} (hi : goodId i) :
    ∀ (imgs : List EmbImage) (md : Str) (st : StitchState),
      ¬ pat1 i <:+: md → ¬ pat2 i <:+: md →
      ¬ pat1 i <:+: (imgs.foldl (processImage relDir) (md, st)).1 ∧
      ¬ pat2 i <:+: (imgs.foldl (processImage relDir) (md, st)).1 := by
  intro imgs
  induction imgs with
  | nil => intro md st h1 h2; exact ⟨h1, h2⟩
  | cons img rest ih =>
    intro md st h1 h2
    rw [List.foldl_cons]
    rcases hf : imgFields img with _ | ⟨j, p⟩
    · rw [processImage_skip hf]
      exact ih md st h1 h2
    · rcases hdec : pyB64Decode (extractPayload p).2 with _ | bs
      · rw [processImage_fail hf hdec]
        exact ih md st h1 h2
      · rw [processImage_succ hf hdec]
        apply ih
        · exact (other_step_no_pat hi hrd st.counter (extractPayload p).1
            (extract_ty_alnum p) h1 h2).1
        · exact (other_step_no_pat hi hrd st.counter (extractPayload p).1
            (extract_ty_alnum p) h1 h2).2

lemma fold_output_eq (relDir : Str) :
    ∀ (imgs : List EmbImage) (md : Str) (st : StitchState),
      (imgs.foldl (processImage relDir) (md, st)).2.output = st.output := by
  intro imgs
  induction imgs with
  | nil => intro md st; rfl
  | cons img rest ih =>
    intro md st
    rw [List.foldl_cons]
    rcases hf : imgFields img with _ | ⟨j, p⟩
    · rw [processImage_skip hf]
      exact ih md st
    · rcases hdec : pyB64Decode (extractPayload p).2 with _ | bs
      · rw [processImage_fail hf hdec]
        exact ih md st
      · rw [processImage_succ hf hdec]
        exact ih _ _

lemma fold_no_pat_at {relDir : Str} (hrd : goodRelDir relDir) :
    ∀ (imgs : List EmbImage) (md : Str) (st : StitchState) (k : Nat) (hk : k < imgs.length)
      (i p : Str), imgFields (imgs.get ⟨k, hk⟩) = some (i, p) →
      (pyB64Decode (extractPayload p).2).isSome = true → goodId i →
      ¬ pat1 i <:+: (imgs.foldl (processImage relDir) (md, st)).1 ∧
      ¬ pat2 i <:+: (imgs.foldl (processImage relDir) (md, st)).1 := by
  intro imgs
  induction imgs with
  | nil =>
    intro md st k hk
    exact absurd hk (by simp)
  | cons img rest ih =>
    intro md st k hk i p hf hdec hi
    cases k with
    | zero =>
      have hf0 : imgFields img = some (i, p) := hf
      obtain ⟨bs, hbs⟩ := Option.isSome_iff_exists.mp hdec
      rw [List.foldl_cons, processImage_succ hf0 hbs]
      apply fold_no_pat hrd hi rest
      · exact (self_step_no_pat hi hrd st.counter (extractPayload p).1
          (extract_ty_alnum p) md).1
      · exact (self_step_no_pat hi hrd st.counter (extractPayload p).1
          (extract_ty_alnum p) md).2
    | succ k1 =>
      rw [List.foldl_cons]
      rcases hacc : processImage relDir (md, st) img with ⟨md1, st1⟩
      exact ih md1 st1 k1 (by simpa using hk) i p hf hdec hi

lemma ctrinv_image (relDir : Str) (img : EmbImage) (md : Str) (st : StitchState)
    (h : CtrInv st) : CtrInv (processImage relDir (md, st) img).2 := by
  rcases hf : imgFields img with _ | ⟨j, p⟩
  · rw [processImage_skip hf]; exact h
  · rcases hdec : pyB64Decode (extractPayload p).2 with _ | bs
    · rw [processImage_fail hf hdec]; exact h
    · rw [processImage_succ hf hdec]
      obtain ⟨h1, h2, h3⟩ := h
      refine ⟨?_, ?_, ?_⟩
      · simp only [List.length_append, List.length_singleton]
        omega
      · simp only [List.map_append, List.map_cons, List.map_nil, List.length_append,
          List.length_singleton]
        rw [h2, h1, List.range_succ]
      · simp only [List.map_append, List.map_cons, List.map_nil]
        rw [h3, h1]

lemma ctrinv_fold_images (relDir : Str) :
    ∀ (imgs : List EmbImage) (md : Str) (st : StitchState), CtrInv st →
      CtrInv (imgs.foldl (processImage relDir) (md, st)).2 := by
  intro imgs
  induction imgs with
  | nil => intro md st h; exact h
  | cons img rest ih =>
    intro md st h
    rw [List.foldl_cons]
    rcases hacc : processImage relDir (md, st) img with ⟨md1, st1⟩
    have := ctrinv_image relDir img md st h
    rw [hacc] at this
    exact ih md1 st1 this

lemma ctrinv_page (relDir : Str) (pg : PageData) (st : StitchState)
    (h : CtrInv st) : CtrInv (processPage relDir st pg) := by
  unfold processPage
  rcases pg.markdown with _ | md
  · exact h
  · dsimp only
    by_cases hmd : md = []
    · rw [if_pos hmd]; exact h
    · rw [if_neg hmd]
      have := ctrinv_fold_images relDir pg.images md st h
      exact ⟨this.1, this.2.1, this.2.2⟩

lemma ctrinv_record (relDir : Str) (r : OcrJson) (st : StitchState)
    (h : CtrInv st) : CtrInv (processRecord relDir st r) := by
  rcases r with _ | _ | pages
  · exact h
  · exact h
  · show CtrInv (pages.foldl (processPage relDir) st)
    induction pages generalizing st with
    | nil => exact h
    | cons pg rest ih =>
      rw [List.foldl_cons]
      exact ih (processPage relDir st pg) (ctrinv_page relDir pg st h)

/-- C1 counterexample: the claim also asserts that no original id
substring survives in a resolved reference.  For the page markdown
`See ![](jpeg).` with image id `jpeg` and raw payload `QUJD` the
decode succeeds and the placeholder is rewritten, yet the id `jpeg`
survives verbatim inside the rewritten reference, because the new
relative path ends in the extension `jpeg`. -/
theorem placeholder_id_substring_survives :
    (pyB64Decode (extractPayload "QUJD".toList).2).isSome = true ∧
    "jpeg".toList <:+:
      (stitchOcrData "../images".toList
        [OcrJson.record [⟨some "See ![](jpeg).".toList,
          [⟨some "jpeg".toList, some "QUJD".toList⟩]⟩]]).output := by
  constructor
  · decide
  · decide

/-- C1 (amended): during stitching, for every embedded image of a page
whose fields pass the guard and whose payload decodes successfully,
provided the id is nonempty and contains none of the characters
`!`, `)`, `]`, `/`, and the relative asset directory contains neither
`!` nor `)`, neither surface form `![](id)` nor `![id](id)` occurs in
the text emitted for that page; the page text is appended to the
output followed by one blank line.  (The original claim is refuted by
`placeholder_id_substring_survives`: the literal id may survive as a
substring of the rewritten reference, and for ids that collide with
the replacement text the surface forms themselves can survive.) -/
theorem stitch_placeholders_eliminated
    (relDir : Str) (hrd : goodRelDir relDir) (st : StitchState) (pg : PageData)
    (md : Str) (hmd : pg.markdown = some md) (hne : md ≠ [])
    (k : Nat) (hk : k < pg.images.length) (i p : Str)
    (hf : imgFields (pg.images.get ⟨k, hk⟩) = some (i, p))
    (hdec : (pyB64Decode (extractPayload p).2).isSome = true)
    (hi : goodId i) :
    ¬ pat1 i <:+: (pg.images.foldl (processImage relDir) (md, st)).1 ∧
    ¬ pat2 i <:+: (pg.images.foldl (processImage relDir) (md, st)).1 ∧
    (processPage relDir st pg).output =
      st.output ++ (pg.images.foldl (processImage relDir) (md, st)).1 ++
        ('\n' :: '\n' :: []) := by
  obtain ⟨h1, h2⟩ := fold_no_pat_at hrd pg.images md st k hk i p hf hdec hi
  refine ⟨h1, h2, ?_⟩
  unfold processPage
  rw [hmd]
  dsimp only
  rw [if_neg hne]
  dsimp only
  rw [fold_output_eq]

/-- Witness for the amended C1 theorem at a concrete page. -/
theorem stitch_placeholders_eliminated_witness :
    ¬ pat1 "img1".toList <:+:
      (([⟨some "img1".toList, some "data:image/png;base64,QUJD".toList⟩] : List EmbImage).foldl
        (processImage "../images".toList)
        ("See ![](img1) and ![img1](img1)".toList,
          (⟨0, [], []⟩ : StitchState))).1 :=
  (stitch_placeholders_eliminated "../images".toList (by decide) ⟨0, [], []⟩
    ⟨some "See ![](img1) and ![img1](img1)".toList,
      [⟨some "img1".toList, some "data:image/png;base64,QUJD".toList⟩]⟩
    "See ![](img1) and ![img1](img1)".toList rfl (by decide) 0 (by decide)
    "img1".toList "data:image/png;base64,QUJD".toList (by decide) (by decide)
    (by decide)).1

/-- C2: within one stitch run the extracted-asset counter starts at 0,
is incremented exactly once per successfully written asset (the final
counter equals the number of written assets), the sequence of counter
values used is exactly 0, 1, 2, ... with no repetition, and every
written asset is named `image_{counter:010d}.{extension}`. -/
theorem stitch_counter_contiguous_from_zero (relDir : Str) (rs : List OcrJson) :
    (stitchOcrData relDir rs).counter = (stitchOcrData relDir rs).assets.length ∧
    (stitchOcrData relDir rs).assets.map (fun a => a.counterValue) =
      List.range (stitchOcrData relDir rs).assets.length ∧
    (stitchOcrData relDir rs).assets.map (fun a => a.name) =
      (stitchOcrData relDir rs).assets.map (fun a => assetName a.counterValue a.ext) := by
  have main : ∀ (l : List OcrJson) (st : StitchState), CtrInv st →
      CtrInv (l.foldl (processRecord relDir) st) := by
    intro l
    induction l with
    | nil => intro st h; exact h
    | cons r rest ih =>
      intro st h
      rw [List.foldl_cons]
      exact ih (processRecord relDir st r) (ctrinv_record relDir r st h)
  exact main rs ⟨0, [], []⟩ ⟨rfl, rfl, rfl⟩

/-- C6: the stitcher is deterministic across invocations: whatever
state one invocation leaves behind, a new invocation over the same
ordered records produces the identical result, because
`_stitch_ocr_data` re-initialises its counter and all other run state
locally (src/main.py lines 134-135); in particular the merged text and
the extracted assets (names and byte contents) coincide between any
two runs over the same input. -/
theorem stitch_run_state_local (p1 p2 : StitchState) (relDir : Str) (rs : List OcrJson) :
    runStitchAfter p1 relDir rs = runStitchAfter p2 relDir rs ∧
    (runStitchAfter p1 relDir rs).output = (runStitchAfter p2 relDir rs).output ∧
    (runStitchAfter p1 relDir rs).assets.map (fun a => a.name) =
      (runStitchAfter p2 relDir rs).assets.map (fun a => a.name) ∧
    (runStitchAfter p1 relDir rs).assets.map (fun a => a.bytes) =
      (runStitchAfter p2 relDir rs).assets.map (fun a => a.bytes) :=
  ⟨rfl, rfl, rfl, rfl⟩

/-- C7: a page whose markdown field is absent or empty is skipped
entirely, contributing no characters, no separator, no decoded images,
no written assets and no counter increment; and every non-skipped page
has its (rewritten) text appended followed by exactly one blank line. -/
theorem empty_page_skipped_nonempty_separated (relDir : Str) (st : StitchState)
    (pg : PageData) (h : pg.markdown = none ∨ pg.markdown = some []) :
    processPage relDir st pg = st ∧
    ∀ (pg2 : PageData) (md : Str), pg2.markdown = some md → md ≠ [] →
      (processPage relDir st pg2).output =
        st.output ++ (pg2.images.foldl (processImage relDir) (md, st)).1 ++
          ('\n' :: '\n' :: []) := by
  constructor
  · rcases h with h | h <;> simp [processPage, h]
  · intro pg2 md h2 hne2
    unfold processPage
    rw [h2]
    dsimp only
    rw [if_neg hne2]
    dsimp only
    rw [fold_output_eq]

/-- Witness for the C7 theorem: a page with empty markdown and a
decodable image contributes nothing at all, and a concrete non-empty
page gets its text plus one blank line appended. -/
theorem empty_page_skipped_nonempty_separated_witness :
    processPage "../images".toList ⟨0, [], []⟩
      ⟨some [], [⟨some "img1".toList, some "QUJD".toList⟩]⟩ = (⟨0, [], []⟩ : StitchState) ∧
    (processPage "../images".toList (⟨0, [], []⟩ : StitchState)
        ⟨some "Done.".toList, []⟩).output =
      ([] : Str) ++ (([] : List EmbImage).foldl (processImage "../images".toList)
        ("Done.".toList, (⟨0, [], []⟩ : StitchState))).1 ++ ('\n' :: '\n' :: []) :=
  ⟨(empty_page_skipped_nonempty_separated "../images".toList ⟨0, [], []⟩
      ⟨some [], [⟨some "img1".toList, some "QUJD".toList⟩]⟩ (Or.inr rfl)).1,
   (empty_page_skipped_nonempty_separated "../images".toList ⟨0, [], []⟩
      ⟨some [], [⟨some "img1".toList, some "QUJD".toList⟩]⟩ (Or.inr rfl)).2
     ⟨some "Done.".toList, []⟩ "Done.".toList rfl (by decide)⟩

/-- C8: a record whose top-level JSON structure is not an object is
skipped with a logged warning and contributes nothing: the stitch of a
record list containing it equals the stitch of the list without it
(same merged output, same assets, same counter), and the run log
contains the warning. -/
theorem non_dict_record_skipped_with_warning (relDir : Str) (rs1 rs2 : List OcrJson) :
    stitchOcrData relDir (rs1 ++ OcrJson.nonDict :: rs2) =
      stitchOcrData relDir (rs1 ++ rs2) ∧
    StitchLog.warnNonDict ∈ stitchLog (rs1 ++ OcrJson.nonDict :: rs2) := by
  constructor
  · unfold stitchOcrData
    rw [List.foldl_append, List.foldl_append, List.foldl_cons]
    rfl
  · have happ : ∀ (xs ys : List OcrJson),
        stitchLog (xs ++ ys) = stitchLog xs ++ stitchLog ys := by
      intro xs ys
      induction xs with
      | nil => rfl
      | cons x rest ih =>
        show recordLog x ++ stitchLog (rest ++ ys) = _
        rw [ih]
        simp [stitchLog, List.append_assoc]
    rw [happ]
    show _ ∈ stitchLog rs1 ++ (StitchLog.warnNonDict :: stitchLog rs2)
    rw [List.mem_append]
    exact Or.inr (List.mem_cons_self _ _)

/-- C10: an embedded image entry whose id or payload field is missing
or empty is skipped silently before any decode attempt: the markdown,
the counter, the asset list and the output are all unchanged, and no
log message is emitted for it. -/
theorem degenerate_image_entry_skipped_silently (relDir : Str)
    (acc : Str × StitchState) (img : EmbImage)
    (h : img.id = none ∨ img.id = some [] ∨
         img.image_base64 = none ∨ img.image_base64 = some []) :
    processImage relDir acc img = acc ∧ imageLog img = [] := by
  have hf : imgFields img = none := by
    rcases img with ⟨iid, ib⟩
    dsimp only at h
    rcases h with h | h | h | h <;> subst h <;> unfold imgFields
    · rfl
    · cases ib with
      | none => rfl
      | some p1 => simp
    · cases iid with
      | none => rfl
      | some i1 => rfl
    · cases iid with
      | none => rfl
      | some i1 => simp
  refine ⟨processImage_skip hf, ?_⟩
  unfold imageLog
  rw [hf]

/-- Witness for the C10 theorem at a concrete degenerate entry. -/
theorem degenerate_image_entry_skipped_silently_witness :
    processImage "../images".toList ("text".toList, ⟨0, [], []⟩)
      ⟨none, some "QUJD".toList⟩ = ("text".toList, (⟨0, [], []⟩ : StitchState)) ∧
    imageLog ⟨none, some "QUJD".toList⟩ = [] :=
  degenerate_image_entry_skipped_silently "../images".toList
    ("text".toList, ⟨0, [], []⟩) ⟨none, some "QUJD".toList⟩ (Or.inl rfl)

/-
Orchestrator lemmas: progress-value arithmetic, the per-item progress
blocks, and the store fold.
-/

lemma pv_append (a b : List OrchEvent) :
    progressValues (a ++ b) = progressValues a ++ progressValues b :=
  List.filterMap_append a b _

lemma pv_item (n i : Nat) (it : WorkItem) :
    progressValues (itemEvents n i it) =
      if it.convertOk then
        if it.encodeOk then
          [pstart n i + pquarter n 1, pstart n i + pquarter n 2,
           pstart n i + pquarter n 3, pstart n (i + 1)]
        else [pstart n i + pquarter n 1, pstart n i + pquarter n 2]
      else [pstart n i + pquarter n 1] := by
  by_cases h1 : it.convertOk
  · by_cases h2 : it.encodeOk
    · by_cases h3 : it.ocrOk
      · by_cases h4 : it.serializeOk <;> by_cases h5 : it.writeOk <;>
          simp [itemEvents, h1, h2, h3, h4, h5, progressValues, List.filterMap_append]
      · simp [itemEvents, h1, h2, h3, progressValues, List.filterMap_append]
    · simp [itemEvents, h1, h2, progressValues]
  · simp [itemEvents, h1, progressValues]

lemma div_add_div_le (a b n : Nat) : a / n + b / n ≤ (a + b) / n := by
  rcases Nat.eq_zero_or_pos n with h | h
  · subst h; simp
  · rw [Nat.le_div_iff_mul_le h, Nat.add_mul]
    exact Nat.add_le_add (Nat.div_mul_le_self a n) (Nat.div_mul_le_self b n)

lemma pstart_mono (n : Nat) {i1 i2 : Nat} (h : i1 ≤ i2) : pstart n i1 ≤ pstart n i2 :=
  Nat.div_le_div_right (Nat.mul_le_mul_right 100 h)

lemma pquarter_mono (n : Nat) {k1 k2 : Nat} (h : k1 ≤ k2) : pquarter n k1 ≤ pquarter n k2 :=
  Nat.div_le_div_right (Nat.mul_le_mul_right 100 h)

lemma pquarter_three_le (n i : Nat) : pstart n i + pquarter n 3 ≤ pstart n (i + 1) := by
  unfold pstart pquarter
  have h75 : 3 * 100 / (4 * n) = 75 / n := by
    have h3 : (3 : Nat) * 100 = 4 * 75 := by norm_num
    rw [h3, Nat.mul_div_mul_left 75 n (by norm_num)]
  rw [h75]
  calc i * 100 / n + 75 / n ≤ (i * 100 + 75) / n := div_add_div_le _ _ n
  _ ≤ (i + 1) * 100 / n := Nat.div_le_div_right (by ring_nf; omega)

lemma pstart_le_100 (n i : Nat) (h : i ≤ n) : pstart n i ≤ 100 := by
  rcases Nat.eq_zero_or_pos n with h0 | h0
  · subst h0
    have : i = 0 := Nat.le_zero.mp h
    subst this
    simp [pstart]
  · calc pstart n i ≤ pstart n n := pstart_mono n h
    _ = 100 := by
      unfold pstart
      rw [Nat.mul_comm, Nat.mul_div_cancel 100 h0]

lemma pv_item_bounds (n i : Nat) (it : WorkItem) :
    ∀ v ∈ progressValues (itemEvents n i it), pstart n i ≤ v ∧ v ≤ pstart n (i + 1) := by
  have hq1 : pstart n i + pquarter n 1 ≤ pstart n (i + 1) :=
    le_trans (Nat.add_le_add_left (pquarter_mono n (by norm_num)) _) (pquarter_three_le n i)
  have hq2 : pstart n i + pquarter n 2 ≤ pstart n (i + 1) :=
    le_trans (Nat.add_le_add_left (pquarter_mono n (by norm_num)) _) (pquarter_three_le n i)
  rw [pv_item]
  by_cases h1 : it.convertOk
  · by_cases h2 : it.encodeOk
    · rw [if_pos h1, if_pos h2]
      intro v hv
      simp only [List.mem_cons, List.mem_singleton, List.not_mem_nil, or_false] at hv
      rcases hv with rfl | rfl | rfl | rfl
      · exact ⟨Nat.le_add_right _ _, hq1⟩
      · exact ⟨Nat.le_add_right _ _, hq2⟩
      · exact ⟨Nat.le_add_right _ _, pquarter_three_le n i⟩
      · exact ⟨pstart_mono n (Nat.le_succ i), le_rfl⟩
    · rw [if_pos h1, if_neg h2]
      intro v hv
      simp only [List.mem_cons, List.mem_singleton, List.not_mem_nil, or_false] at hv
      rcases hv with rfl | rfl
      · exact ⟨Nat.le_add_right _ _, hq1⟩
      · exact ⟨Nat.le_add_right _ _, hq2⟩
  · rw [if_neg h1]
    intro v hv
    simp only [List.mem_singleton] at hv
    subst hv
    exact ⟨Nat.le_add_right _ _, hq1⟩

lemma pv_item_chain (n i : Nat) (it : WorkItem) :
    List.Chain' (· ≤ ·) (progressValues (itemEvents n i it)) := by
  have hqa : pstart n i + pquarter n 1 ≤ pstart n i + pquarter n 2 :=
    Nat.add_le_add_left (pquarter_mono n (by norm_num)) _
  have hqb : pstart n i + pquarter n 2 ≤ pstart n i + pquarter n 3 :=
    Nat.add_le_add_left (pquarter_mono n (by norm_num)) _
  rw [pv_item]
  by_cases h1 : it.convertOk
  · by_cases h2 : it.encodeOk
    · rw [if_pos h1, if_pos h2]
      exact List.chain'_cons.mpr ⟨hqa, List.chain'_cons.mpr ⟨hqb,
        List.chain'_cons.mpr ⟨pquarter_three_le n i, List.chain'_singleton _⟩⟩⟩
    · rw [if_pos h1, if_neg h2]
      exact List.chain'_cons.mpr ⟨hqa, List.chain'_singleton _⟩
  · rw [if_neg h1]
    exact List.chain'_singleton _

lemma pv_events_from (n : Nat) :
    ∀ (its : List WorkItem) (i : Nat),
      List.Chain' (· ≤ ·) (progressValues (eventsFrom n i its)) ∧
      ∀ v ∈ progressValues (eventsFrom n i its),
        pstart n i ≤ v ∧ v ≤ pstart n (i + its.length) := by
  intro its
  induction its with
  | nil =>
    intro i
    refine ⟨?_, ?_⟩
    · show List.Chain' (· ≤ ·) (progressValues [])
      exact List.chain'_nil
    · intro v hv
      exact absurd hv (by simp [eventsFrom, progressValues])
  | cons it rest ih =>
    intro i
    obtain ⟨hrc, hrb⟩ := ih (i + 1)
    have hshape : eventsFrom n i (it :: rest) = itemEvents n i it ++ eventsFrom n (i + 1) rest := rfl
    rw [hshape, pv_append]
    constructor
    · apply List.Chain'.append (pv_item_chain n i it) hrc
      intro x hx y hy
      have hx1 := pv_item_bounds n i it x (List.mem_of_mem_getLast? hx)
      have hy1 := hrb y (List.mem_of_mem_head? hy)
      exact le_trans hx1.2 hy1.1
    · intro v hv
      rw [List.mem_append] at hv
      have harith : i + 1 + rest.length = i + (rest.length + 1) := by omega
      rcases hv with hv | hv
      · have h1 := pv_item_bounds n i it v hv
        refine ⟨h1.1, le_trans h1.2 ?_⟩
        rw [List.length_cons]
        exact pstart_mono n (by omega)
      · have h1 := hrb v hv
        refine ⟨le_trans (pstart_mono n (Nat.le_succ i)) h1.1, ?_⟩
        rw [List.length_cons]
        exact le_trans h1.2 (pstart_mono n (by omega))

lemma pv_run (items : List WorkItem) :
    progressValues (runEvents items) =
      0 :: (progressValues (eventsFrom items.length 0 items) ++ [100]) := by
  unfold runEvents
  show 0 :: progressValues (eventsFrom items.length 0 items ++ [.statusComplete, .progress 100]) = _
  rw [pv_append]
  rfl

lemma pv_run_chain (items : List WorkItem) :
    List.Chain' (· ≤ ·) (progressValues (runEvents items)) := by
  rw [pv_run]
  obtain ⟨hc, hb⟩ := pv_events_from items.length items 0
  apply List.chain'_cons'.mpr
  refine ⟨fun y _ => Nat.zero_le y, ?_⟩
  apply List.Chain'.append hc (List.chain'_singleton 100)
  intro x hx y hy
  have hx1 := hb x (List.mem_of_mem_getLast? hx)
  have hy1 : y = 100 := by
    simp only [List.head?_cons, Option.mem_def, Option.some.injEq] at hy
    exact hy.symm
  rw [hy1]
  exact le_trans hx1.2 (pstart_le_100 items.length (0 + items.length) (by omega))

lemma lookup_nil (k : Str) : lookupStore [] k = none := rfl

lemma lookup_insert_self (s : Store) (k : Str) (v : RecContent) :
    lookupStore (storeInsert s k v) k = some v := by
  induction s with
  | nil =>
    show lookupStore [(k, v)] k = some v
    unfold lookupStore
    rw [List.find?_cons_of_pos _ (by simp)]
    rfl
  | cons e s ih =>
    show lookupStore (if e.1 = k then (k, v) :: s else e :: storeInsert s k v) k = some v
    by_cases he : e.1 = k
    · rw [if_pos he]
      unfold lookupStore
      rw [List.find?_cons_of_pos _ (by simp)]
      rfl
    · rw [if_neg he]
      unfold lookupStore
      rw [List.find?_cons_of_neg _ (by simp [he])]
      exact ih

lemma lookup_insert_ne (s : Store) (k1 k : Str) (v : RecContent) (h : k1 ≠ k) :
    lookupStore (storeInsert s k1 v) k = lookupStore s k := by
  induction s with
  | nil =>
    show lookupStore [(k1, v)] k = none
    unfold lookupStore
    rw [List.find?_cons_of_neg _ (by simp [h])]
    rfl
  | cons e s ih =>
    show lookupStore (if e.1 = k1 then (k1, v) :: s else e :: storeInsert s k1 v) k = _
    by_cases he : e.1 = k1
    · rw [if_pos he]
      unfold lookupStore
      rw [List.find?_cons_of_neg _ (by simp [h])]
      show _ = lookupStore (e :: s) k
      unfold lookupStore
      rw [List.find?_cons_of_neg _ (by simp [he ▸ h])]
    · rw [if_neg he]
      show lookupStore (e :: storeInsert s k1 v) k = lookupStore (e :: s) k
      unfold lookupStore
      by_cases hek : e.1 = k
      · rw [List.find?_cons_of_pos _ (by simp [hek]), List.find?_cons_of_pos _ (by simp [hek])]
      · rw [List.find?_cons_of_neg _ (by simp [hek]), List.find?_cons_of_neg _ (by simp [hek])]
        exact ih

lemma length_insert_new (s : Store) (k : Str) (v : RecContent)
    (h : lookupStore s k = none) : (storeInsert s k v).length = s.length + 1 := by
  induction s with
  | nil => rfl
  | cons e s ih =>
    have he : ¬ e.1 = k := by
      intro hek
      unfold lookupStore at h
      rw [List.find?_cons_of_pos _ (by simp [hek])] at h
      exact Option.noConfusion h
    have htail : lookupStore s k = none := by
      unfold lookupStore at h ⊢
      rw [List.find?_cons_of_neg _ (by simp [he])] at h
      exact h
    show (if e.1 = k then (k, v) :: s else e :: storeInsert s k v).length = _
    rw [if_neg he]
    rw [List.length_cons, List.length_cons, ih htail]

lemma fold_store_lookup_ne :
    ∀ (its : List WorkItem) (s : Store) (k : Str),
      (∀ it ∈ its, itemSucceeds it = true → itemKey it ≠ k) →
      lookupStore (its.foldl processItemStore s) k = lookupStore s k := by
  intro its
  induction its with
  | nil => intro s k _; rfl
  | cons it rest ih =>
    intro s k h
    rw [List.foldl_cons]
    rw [ih _ k (fun j hj hsj => h j (List.mem_cons_of_mem it hj) hsj)]
    unfold processItemStore
    by_cases hs : itemSucceeds it = true
    · rw [if_pos hs]
      exact lookup_insert_ne s (itemKey it) k (itemRecord it)
        (h it (List.mem_cons_self it rest) hs)
    · rw [if_neg hs]

lemma fold_store_length :
    ∀ (its : List WorkItem) (s : Store),
      (∀ it ∈ its, itemSucceeds it = true → lookupStore s (itemKey it) = none) →
      (its.map itemKey).Nodup →
      (its.foldl processItemStore s).length =
        s.length + its.countP (fun it => itemSucceeds it) := by
  intro its
  induction its with
  | nil => intro s _ _; simp
  | cons it rest ih =>
    intro s hfresh hnd
    rw [List.foldl_cons, List.countP_cons]
    have hnd1 : (rest.map itemKey).Nodup := (List.nodup_cons.mp (by simpa using hnd)).2
    have hhd : itemKey it ∉ rest.map itemKey := (List.nodup_cons.mp (by simpa using hnd)).1
    by_cases hs : itemSucceeds it = true
    · rw [show processItemStore s it = storeInsert s (itemKey it) (itemRecord it) by
        unfold processItemStore; rw [if_pos hs]]
      have hlen := length_insert_new s (itemKey it) (itemRecord it)
        (hfresh it (List.mem_cons_self it rest) hs)
      have hfresh1 : ∀ j ∈ rest, itemSucceeds j = true →
          lookupStore (storeInsert s (itemKey it) (itemRecord it)) (itemKey j) = none := by
        intro j hj hsj
        have hne : itemKey it ≠ itemKey j := by
          intro he
          exact hhd (he ▸ List.mem_map_of_mem itemKey hj)
        rw [lookup_insert_ne s (itemKey it) (itemKey j) (itemRecord it) hne]
        exact hfresh j (List.mem_cons_of_mem it hj) hsj
      rw [ih _ hfresh1 hnd1, hlen, if_pos hs]
      omega
    · rw [show processItemStore s it = s by unfold processItemStore; rw [if_neg hs]]
      rw [ih _ (fun j hj hsj => hfresh j (List.mem_cons_of_mem it hj) hsj) hnd1, if_neg hs]
      omega

lemma countP_not_add (p : WorkItem → Bool) (l : List WorkItem) :
    l.countP p + l.countP (fun a => !(p a)) = l.length := by
  induction l with
  | nil => rfl
  | cons a l ih =>
    rw [List.countP_cons, List.countP_cons, List.length_cons]
    by_cases h : p a = true
    · rw [if_pos h, if_neg (by simp [h])]
      omega
    · have hf : p a = false := by revert h; cases p a <;> simp
      rw [if_neg h, if_pos (by rw [hf]; rfl)]
      omega

lemma failure_event_in_item (n k : Nat) (it : WorkItem) (h : itemHardFails it = true) :
    failureEvent k it ∈ itemEvents n k it := by
  unfold itemHardFails itemSucceeds at h
  by_cases h1 : it.convertOk <;> by_cases h2 : it.encodeOk <;> by_cases h3 : it.ocrOk <;>
    by_cases h4 : it.writeOk <;> by_cases h5 : it.serializeOk <;>
      simp_all [failureEvent, itemEvents]

lemma mem_events_from (n : Nat) :
    ∀ (its : List WorkItem) (i k : Nat) (hk : k < its.length) (e : OrchEvent),
      e ∈ itemEvents n (i + k) (its.get ⟨k, hk⟩) → e ∈ eventsFrom n i its := by
  intro its
  induction its with
  | nil => intro i k hk; exact absurd hk (by simp)
  | cons it rest ih =>
    intro i k hk e he
    show e ∈ itemEvents n i it ++ eventsFrom n (i + 1) rest
    rw [List.mem_append]
    cases k with
    | zero =>
      left
      simpa using he
    | succ k1 =>
      right
      have harith : i + (k1 + 1) = (i + 1) + k1 := by omega
      rw [harith] at he
      rw [List.get_cons_succ] at he
      exact ih (i + 1) k1 (by simpa using hk) e he

/-- C3 counterexample: in a one-item batch the quarter values are
exactly 25, 50, 75, and the trace emits progress 25 strictly before the
normalize sub-step completes (the event order is progress 0, the
processing status, progress 25, and only then the end of conversion),
refuting the claim that each quarter is reported as soon as, and not
before, the corresponding sub-step completes. -/
theorem quarter_progress_before_normalize_completes :
    (runEvents [⟨"a".toList, true, true, true, true, true, []⟩]).take 4 =
      [OrchEvent.progress 0, OrchEvent.statusProcessing 0, OrchEvent.progress 25,
       OrchEvent.normalizeDone 0] ∧
    pstart 1 0 + pquarter 1 1 = 25 := by
  exact ⟨by decide, by decide⟩

/-- C3 (amended): each item owns the progress range from
`pstart n i` to `pstart n (i+1)` of the 0-100 scale; the quarter value
`pstart n i + pquarter n k` for k = 1, 2, 3 is reported when the k-th
sub-step (normalize, encode, submit) begins, not when it completes —
in particular the first quarter value is emitted before the normalize
sub-step runs — the end-of-share value follows persist, and the whole
reported percentage sequence is monotone.  (Division is modelled with
exact rational flooring; the source computes the same expressions in
IEEE doubles, which can differ by one unit for some batch sizes.) -/
theorem progress_monotone_quarters_at_substep_start (items : List WorkItem)
    (k : Nat) (hk : k < items.length) (hc : (items.get ⟨k, hk⟩).convertOk = true) :
    List.Chain' (· ≤ ·) (progressValues (runEvents items)) ∧
    ∃ rest, itemEvents items.length k (items.get ⟨k, hk⟩) =
      OrchEvent.statusProcessing k ::
      OrchEvent.progress (pstart items.length k + pquarter items.length 1) ::
      OrchEvent.normalizeDone k :: rest := by
  refine ⟨pv_run_chain items, ?_⟩
  unfold itemEvents
  rw [if_pos hc]
  exact ⟨_, rfl⟩

/-- Witness for the amended C3 theorem on a concrete one-item batch. -/
theorem progress_monotone_quarters_at_substep_start_witness :
    List.Chain' (· ≤ ·) (progressValues (runEvents
      [⟨"a".toList, true, true, true, true, true, []⟩])) :=
  (progress_monotone_quarters_at_substep_start
    [⟨"a".toList, true, true, true, true, true, []⟩] 0 (by decide) (by decide)).1

/-- C4 counterexample: two distinct selected files can share a record
key (here two items with the same stem, as two images of the same name
in different folders do), in which case the second record overwrites
the first: with N = 2 items and K = 0 hard failures the store holds
one record, not N - K = 2. -/
theorem store_count_duplicate_keys :
    (runStore [⟨"a".toList, true, true, true, true, true, []⟩,
               ⟨"a".toList, true, true, true, true, true, []⟩]).length = 1 ∧
    ([⟨"a".toList, true, true, true, true, true, []⟩,
      ⟨"a".toList, true, true, true, true, true, []⟩] : List WorkItem).length -
      ([(⟨"a".toList, true, true, true, true, true, []⟩ : WorkItem),
        ⟨"a".toList, true, true, true, true, true, []⟩] : List WorkItem).countP
        (fun it => itemHardFails it) = 2 ∧
    (1 : Nat) ≠ 2 := by
  exact ⟨by decide, by decide, by decide⟩

/-- C4 (amended): for a batch of N items with pairwise distinct record
keys, of which K suffer a per-item hard failure (failed conversion,
encoding, OCR request or record write), the orchestrator reports each
failure as a status message, writes no record for a failed item,
continues with the remaining items, ends the run with exactly N - K
records in an initially empty store, and the last reported progress
value is exactly 100.  (The original claim is refuted by
`store_count_duplicate_keys` when two items share a key.) -/
theorem workflow_continue_on_error_counts (items : List WorkItem)
    (hnd : (items.map itemKey).Nodup) :
    (runStore items).length = items.length - items.countP (fun it => itemHardFails it) ∧
    (progressValues (runEvents items)).getLast? = some 100 ∧
    (∀ k (hk : k < items.length), itemHardFails (items.get ⟨k, hk⟩) = true →
       failureEvent k (items.get ⟨k, hk⟩) ∈ runEvents items) ∧
    (∀ k (hk : k < items.length), itemHardFails (items.get ⟨k, hk⟩) = true →
       lookupStore (runStore items) (itemKey (items.get ⟨k, hk⟩)) = none) := by
  refine ⟨?_, ?_, ?_, ?_⟩
  · have h1 := fold_store_length items [] (fun it _ _ => rfl) hnd
    have h2 : items.countP (fun it => itemSucceeds it) +
        items.countP (fun it => itemHardFails it) = items.length :=
      countP_not_add (fun it => itemSucceeds it) items
    show (items.foldl processItemStore []).length = _
    rw [h1]
    simp only [List.length_nil, Nat.zero_add]
    omega
  · rw [pv_run, ← List.cons_append]
    exact List.getLast?_concat _
  · intro k hk hfail
    have h1 := failure_event_in_item items.length k (items.get ⟨k, hk⟩) hfail
    have h2 := mem_events_from items.length items 0 k hk
      (failureEvent k (items.get ⟨k, hk⟩)) (by rw [Nat.zero_add]; exact h1)
    unfold runEvents
    rw [List.mem_cons, List.mem_append]
    exact Or.inr (Or.inl h2)
  · intro k hk hfail
    have hcond : ∀ j ∈ items, itemSucceeds j = true →
        itemKey j ≠ itemKey (items.get ⟨k, hk⟩) := by
      intro j hj hsj he
      have hjt : j = items.get ⟨k, hk⟩ :=
        List.inj_on_of_nodup_map hnd hj (List.get_mem items k hk) he
      rw [hjt] at hsj
      unfold itemHardFails at hfail
      rw [hsj] at hfail
      exact absurd hfail (by decide)
    show lookupStore (items.foldl processItemStore []) _ = none
    rw [fold_store_lookup_ne items [] _ hcond]
    rfl

/-- Witness for the amended C4 theorem on a concrete two-item batch
with one encoding failure. -/
theorem workflow_continue_on_error_counts_witness :
    (runStore [⟨"a".toList, true, true, true, true, true, []⟩,
               ⟨"b".toList, true, false, true, true, true, []⟩]).length =
      ([⟨"a".toList, true, true, true, true, true, []⟩,
        ⟨"b".toList, true, false, true, true, true, []⟩] : List WorkItem).length -
        ([(⟨"a".toList, true, true, true, true, true, []⟩ : WorkItem),
          ⟨"b".toList, true, false, true, true, true, []⟩] : List WorkItem).countP
          (fun it => itemHardFails it) :=
  (workflow_continue_on_error_counts
    [⟨"a".toList, true, true, true, true, true, []⟩,
     ⟨"b".toList, true, false, true, true, true, []⟩] (by decide)).1

/-- C9: when the OCR request succeeds but the response cannot be
converted into the record shape, the orchestrator still persists a
record for the item — the error-marker object carrying the message
`Failed to serialize OCR response` plus the detail text — provided the
record write itself succeeds and no later item overwrites the same
key. -/
theorem serialize_failure_persists_error_marker (pre post : List WorkItem)
    (it : WorkItem) (hc : it.convertOk = true) (he : it.encodeOk = true)
    (ho : it.ocrOk = true) (hw : it.writeOk = true) (hs : it.serializeOk = false)
    (hpost : ∀ j ∈ post, itemKey j ≠ itemKey it) :
    lookupStore (runStore (pre ++ it :: post)) (itemKey it) =
      some (RecContent.errorMarker serializeFailMsg it.serializeErrDetail) := by
  unfold runStore
  rw [List.foldl_append, List.foldl_cons]
  have hsucc : itemSucceeds it = true := by
    unfold itemSucceeds
    rw [hc, he, ho, hw]
    rfl
  have hstep : processItemStore (List.foldl processItemStore [] pre) it =
      storeInsert (List.foldl processItemStore [] pre) (itemKey it)
        (RecContent.errorMarker serializeFailMsg it.serializeErrDetail) := by
    unfold processItemStore
    rw [if_pos hsucc]
    unfold itemRecord
    rw [if_neg (by rw [hs]; exact Bool.false_ne_true)]
  rw [hstep]
  rw [fold_store_lookup_ne post _ (itemKey it) (fun j hj _ => hpost j hj)]
  exact lookup_insert_self _ _ _

/-- Witness for the C9 theorem: a one-item batch whose serialisation
fails ends with the error-marker record in the store. -/
theorem serialize_failure_persists_error_marker_witness :
    lookupStore (runStore ([] ++ (⟨"a".toList, true, true, true, false, true,
        "boom".toList⟩ : WorkItem) :: []))
      (itemKey ⟨"a".toList, true, true, true, false, true, "boom".toList⟩) =
      some (RecContent.errorMarker serializeFailMsg "boom".toList) :=
  serialize_failure_persists_error_marker [] []
    ⟨"a".toList, true, true, true, false, true, "boom".toList⟩
    rfl rfl rfl rfl rfl (fun j hj => absurd hj (by simp))

/-
Payload extraction lemmas for C5.
-/

lemma takeWhile_append_all {p : Char → Bool} :
    ∀ (xs ys : Str), (∀ c ∈ xs, p c = true) →
      (xs ++ ys).takeWhile p = xs ++ ys.takeWhile p := by
  intro xs
  induction xs with
  | nil => intro ys _; rfl
  | cons a t ih =>
    intro ys h
    rw [List.cons_append, List.takeWhile_cons, if_pos (h a (List.mem_cons_self a t)),
      ih ys (fun c hc => h c (List.mem_cons_of_mem a hc)), List.cons_append]

lemma dropWhile_append_all {p : Char → Bool} :
    ∀ (xs ys : Str), (∀ c ∈ xs, p c = true) →
      (xs ++ ys).dropWhile p = ys.dropWhile p := by
  intro xs
  induction xs with
  | nil => intro ys _; rfl
  | cons a t ih =>
    intro ys h
    rw [List.cons_append, List.dropWhile_cons, if_pos (h a (List.mem_cons_self a t)),
      ih ys (fun c hc => h c (List.mem_cons_of_mem a hc))]

lemma afterLastSlash_append (xs ys : Str) (h : '/' ∉ ys) :
    afterLastSlash (xs ++ '/' :: ys) = ys := by
  unfold afterLastSlash
  rw [List.foldl_append, List.foldl_cons]
  simp only [eq_self_iff_true, if_true]
  have aux : ∀ (zs : Str) (a : Str), '/' ∉ zs →
      List.foldl (fun (acc : Str) c => if c = '/' then [] else acc ++ [c]) a zs
        = a ++ zs := by
    intro zs
    induction zs with
    | nil => intro a _; rw [List.foldl_nil, List.append_nil]
    | cons c t ih =>
      intro a hz
      rw [List.foldl_cons]
      have hc : ¬ c = '/' := fun he => hz (he ▸ List.mem_cons_self c t)
      rw [if_neg hc, ih (a ++ [c]) (fun hm => hz (List.mem_cons_of_mem c hm))]
      simp
  rw [aux ys [] h, List.nil_append]

/-- C5 counterexample: for the payload `data:image/a/png;base64,QUJD`
the code takes the segment after the last slash and writes extension
`png`, while the subtype after `image/` is `a/png`, which is not
alphanumeric, so the claim prescribes the default `jpeg`. -/
theorem extension_not_spec_subtype :
    (extractPayload "data:image/a/png;base64,QUJD".toList).1 = "png".toList ∧
    claimC5Ext "data:image/a/png;base64,QUJD".toList = "jpeg".toList ∧
    (extractPayload "data:image/a/png;base64,QUJD".toList).1 ≠
      claimC5Ext "data:image/a/png;base64,QUJD".toList := by
  exact ⟨by decide, by decide, by decide⟩

/-- C5 (amended): for a data-URI payload
`data:image/<sub>;base64,<data>` the part decoded is exactly the part
after the first comma, and the extension is the segment of the mime
field after the last slash, checked for being alphanumeric, with
default `jpeg`; when the subtype contains no slash (every real mime
subtype) this coincides with the claim: the extension is the subtype
after `image/` when alphanumeric, else `jpeg`.  A payload without a
comma is decoded whole with extension `jpeg`.  (The original claim is
refuted by `extension_not_spec_subtype` on a subtype containing a
slash.) -/
theorem payload_extension_last_slash_segment (sub data : Str)
    (hslash : '/' ∉ sub) (hsemi : ';' ∉ sub) (hcomma : ',' ∉ sub) :
    extractPayload ("data:image/".toList ++ sub ++ ";base64,".toList ++ data) =
      ((if pyIsAlnum sub then sub else "jpeg".toList), data) ∧
    (∀ q : Str, ',' ∉ q → extractPayload q = ("jpeg".toList, q)) := by
  constructor
  · have hX : ";base64,".toList ++ data = ";base64".toList ++ ',' :: data := rfl
    have hsplit : "data:image/".toList ++ sub ++ ";base64,".toList ++ data
        = "data:image/".toList ++ (sub ++ (";base64".toList ++ ',' :: data)) := by
      simp only [List.append_assoc]
      rw [hX]
    rw [hsplit]
    have hpre : ∀ c ∈ "data:image/".toList, (decide (c ≠ ',')) = true := by decide
    have hsub : ∀ c ∈ sub, (decide (c ≠ ',')) = true := fun c hc =>
      decide_eq_true (fun he => hcomma (he ▸ hc))
    have hmid : ∀ c ∈ ";base64".toList, (decide (c ≠ ',')) = true := by decide
    have hpre2 : ∀ c ∈ "data:image/".toList, (decide (c ≠ ';')) = true := by decide
    have hsub2 : ∀ c ∈ sub, (decide (c ≠ ';')) = true := fun c hc =>
      decide_eq_true (fun he => hsemi (he ▸ hc))
    have hmem : ',' ∈ "data:image/".toList ++ (sub ++ (";base64".toList ++ ',' :: data)) := by
      simp
    have hcneg : ¬ (decide (',' ≠ ',') = true) := by decide
    have hsneg : ¬ (decide (';' ≠ ';') = true) := by decide
    have hheader : ("data:image/".toList ++ (sub ++ (";base64".toList ++ ',' :: data))).takeWhile
        (fun c => decide (c ≠ ',')) =
        "data:image/".toList ++ (sub ++ ";base64".toList) := by
      rw [takeWhile_append_all _ _ hpre, takeWhile_append_all _ _ hsub,
        takeWhile_append_all _ _ hmid, List.takeWhile_cons, if_neg hcneg,
        List.append_nil]
    have hb64 : (("data:image/".toList ++ (sub ++ (";base64".toList ++ ',' :: data))).dropWhile
        (fun c => decide (c ≠ ','))).tail = data := by
      rw [dropWhile_append_all _ _ hpre, dropWhile_append_all _ _ hsub,
        dropWhile_append_all _ _ hmid, List.dropWhile_cons, if_neg hcneg]
      rfl
    have hmid2 : List.takeWhile (fun c => decide (c ≠ ';')) ";base64".toList = [] := by
      decide
    have hseg : ("data:image/".toList ++ (sub ++ ";base64".toList)).takeWhile
        (fun c => decide (c ≠ ';')) = "data:image/".toList ++ sub := by
      rw [takeWhile_append_all _ _ hpre2, takeWhile_append_all _ _ hsub2, hmid2,
        List.append_nil]
    have hlast : afterLastSlash ("data:image/".toList ++ sub) = sub := by
      have hpre3 : "data:image/".toList ++ sub = "data:image".toList ++ '/' :: sub := rfl
      rw [hpre3, afterLastSlash_append _ _ hslash]
    have hpfx : "data:image/".toList <+: "data:image/".toList ++ (sub ++ ";base64".toList) :=
      ⟨sub ++ ";base64".toList, rfl⟩
    unfold extractPayload
    rw [if_pos hmem]
    dsimp only
    rw [hheader, hb64, if_pos hpfx, hseg, hlast]
  · intro q hq
    unfold extractPayload
    rw [if_neg hq]

/-- Witness for the amended C5 theorem at the subtype `png`. -/
theorem payload_extension_last_slash_segment_witness :
    extractPayload ("data:image/".toList ++ "png".toList ++ ";base64,".toList ++
        "QUJD".toList) =
      ((if pyIsAlnum "png".toList then "png".toList else "jpeg".toList),
        "QUJD".toList) :=
  (payload_extension_last_slash_segment "png".toList "QUJD".toList
    (by decide) (by decide) (by decide)).1
